import Mathlib

set_option linter.unusedVariables false

/-!
Verification of the VariantEditor core: the `\x7b\x7bc0|c1|...|ck\x7d\x7d^n`
inline variant syntax, its scanner/parser (regex
`\{\{([^{}]+?)\}\}\^(\d+)` in `src/main.ts`), the commit-all resolver
(`commitAllVariants`), the span locator (`highlightSelection`), the modal
model operations (`TextInputModal`), and the decoration offset arithmetic
(`createVariantIndicatorExtension`).  Text is modelled as `List Char`.
-/

/-- Characters of a string literal (JS strings are modelled as `List Char`). -/
def strL (s : String) : List Char := s.data

/-- The JS regex class `\d`: the characters 0-9. -/
def isDig (c : Char) : Bool := decide ('0' ≤ c) && decide (c ≤ '9')

/-- The JS regex class `[^{}]`: any character other than a curly brace. -/
def notBrace (c : Char) : Bool := !(c == '{') && !(c == '}')

/-- Holds when the list is empty or its head fails `p`; the boundary
condition under which `takeWhile p` stops exactly at the junction. -/
def headNotP (p : α → Bool) : List α → Bool
  | [] => true
  | c :: _ => !(p c)

/-- The character for a decimal digit value (0-9). -/
def digitCh : Nat → Char
  | 0 => '0' | 1 => '1' | 2 => '2' | 3 => '3' | 4 => '4'
  | 5 => '5' | 6 => '6' | 7 => '7' | 8 => '8' | _ => '9'

/-- Little-endian decimal digits of `n` (empty for 0), with fuel for
structural recursion; fuel `n` is always sufficient. -/
def natReprAux : Nat → Nat → List Char
  | 0, _ => []
  | _, 0 => []
  | fuel+1, n+1 => digitCh ((n+1) % 10) :: natReprAux fuel ((n+1) / 10)

/-- Decimal representation of a natural number, as produced by JS string
interpolation of `activeIdx` in the serialized span. -/
def natRepr (n : Nat) : List Char :=
  if n = 0 then ['0'] else (natReprAux n n).reverse

/-- Value of a decimal digit string, as computed by
`parseInt(match[2], 10)` on the regex digit capture. -/
def digitsToNat (ds : List Char) : Nat :=
  ds.foldl (fun a c => a * 10 + (c.toNat - 48)) 0

/-- Value of a little-endian list of decimal digit characters (proof
helper for relating `natRepr` and `digitsToNat`). -/
def leVal : List Char → Nat
  | [] => 0
  | c :: r => (c.toNat - 48) + 10 * leVal r

/-- Behavior of JS `String.prototype.split('|')`: fields between pipe characters;
fields may be empty, and the number of fields is pipes + 1. -/
def splitPipe : List Char → List (List Char)
  | [] => [[]]
  | c :: rest =>
    if c == '|' then [] :: splitPipe rest
    else
      match splitPipe rest with
      | h :: t => (c :: h) :: t
      | [] => [[c]]

/-- Behavior of JS `Array.prototype.join('|')`. -/
def joinPipe : List (List Char) → List Char
  | [] => []
  | [v] => v
  | v :: v2 :: rest => v ++ '|' :: joinPipe (v2 :: rest)

/-- The text of a regex match: `\x7b\x7b` ++ inner ++ `\x7d\x7d^` ++ digits
(JS `match[0]`, with `match[1] = inner` and `match[2] = digits`). -/
def matchText (inner ds : List Char) : List Char :=
  '{' :: '{' :: (inner ++ '}' :: '}' :: '^' :: ds)

/-- One attempt of the regex `\{\{([^{}]+?)\}\}\^(\d+)` at the head of the
text.  The lazy inner group `[^{}]+?` cannot cross a brace, so it matches
exactly the maximal brace-free run, which must be non-empty and followed by
`\x7d\x7d^`; the digit group is greedy and non-empty.  Returns the two
captures and the remaining text after the match. -/
def tryMatch (cs : List Char) : Option (List Char × List Char × List Char) :=
  match cs with
  | c1 :: c2 :: r =>
    if c1 == '{' && c2 == '{' then
      let inner := r.takeWhile notBrace
      match r.dropWhile notBrace with
      | d1 :: d2 :: d3 :: r2 =>
        if d1 == '}' && d2 == '}' && d3 == '^' then
          let ds := r2.takeWhile isDig
          if inner.isEmpty || ds.isEmpty then none
          else some (inner, ds, r2.dropWhile isDig)
        else none
      | _ => none
    else none
  | _ => none

/-- Anchored form `^\{\{([^{}]+?)\}\}\^(\d+)$` (main.ts line 386): a full
match of the whole text, returning the inner capture and the digit capture. -/
def parseFull (t : List Char) : Option (List Char × List Char) :=
  match tryMatch t with
  | some (inner, ds, rest) => if rest.isEmpty then some (inner, ds) else none
  | none => none

/-- Whether the whole text is one span token (full regex match). -/
def isSpanToken (t : List Char) : Bool :=
  match tryMatch t with
  | some (_, _, rest) => rest.isEmpty
  | none => false

/-- Whether some substring of `t` is a well-formed span token. -/
def containsSpanB (t : List Char) : Bool :=
  t.tails.any (fun suf => suf.inits.any isSpanToken)

/-- Candidate-list parse of a whole span, as performed by
`highlightSelection` (anchored regex, main.ts 386-392) feeding the
`TextInputModal` constructor (TextInputModal.ts 32-41):
split the inner capture on `|`, drop empty pieces, read the digit group. -/
def parseSpan (t : List Char) : Option (List (List Char) × Nat) :=
  match parseFull t with
  | some (inner, ds) =>
      some ((splitPipe inner).filter (fun v => !v.isEmpty), digitsToNat ds)
  | none => none

/-- Span serialization (main.ts 489 and TextInputModal.ts 290):
`\x7b\x7b` + candidates joined by `|` + `\x7d\x7d^` + activeIndex. -/
def serializeSpan (cs : List (List Char)) (k : Nat) : List Char :=
  '{' :: '{' :: (joinPipe cs ++ '}' :: '}' :: '^' :: natRepr k)

/-- The `commitAllVariants` text transformation (main.ts 573-602), with
fuel for structural recursion; fuel = text length is always sufficient.
Returns (resolved text, number of variants committed): each regex match
whose parsed index is in bounds is replaced by the candidate at that index
and counted; an out-of-bounds match is re-emitted verbatim; unmatched text
is copied verbatim. -/
def commitAllF : Nat → List Char → List Char × Nat
  | 0, _ => ([], 0)
  | _+1, [] => ([], 0)
  | fuel+1, c :: cs =>
    match tryMatch (c :: cs) with
    | some (inner, ds, rest) =>
      let vs := splitPipe inner
      let k := digitsToNat ds
      let r := commitAllF fuel rest
      if k < vs.length then (vs.getD k [] ++ r.1, r.2 + 1)
      else (matchText inner ds ++ r.1, r.2)
    | none =>
      let r := commitAllF fuel cs
      (c :: r.1, r.2)

/-- Wrapper of `commitAllF` at sufficient fuel: resolved text and committed count. -/
def commitAll (cs : List Char) : List Char × Nat := commitAllF cs.length cs

/-- The resolve-all text transformation alone (the spec's `resolveAll`). -/
def resolveAll (cs : List Char) : List Char := (commitAll cs).1

/-- One match found while scanning a line: start offset, end offset, inner
capture, digit capture. -/
structure SpanMatch where
  mStart : Nat
  mEnd : Nat
  inner : List Char
  digits : List Char
deriving DecidableEq

/-- Left-to-right scan of all non-overlapping regex matches (the
`while ((match = regex.exec(line)) !== null)` loops), with fuel. -/
def scanF : Nat → List Char → Nat → List SpanMatch
  | 0, _, _ => []
  | _+1, [], _ => []
  | fuel+1, c :: cs, i =>
    match tryMatch (c :: cs) with
    | some (inner, ds, rest) =>
      ⟨i, i + (inner.length + ds.length + 5), inner, ds⟩ ::
        scanF fuel rest (i + (inner.length + ds.length + 5))
    | none => scanF fuel cs (i + 1)

/-- All matches of a line with their absolute character offsets. -/
def scanMatches (line : List Char) : List SpanMatch := scanF line.length line 0

/-- The overlap test of main.ts 407-409: selection starts inside the
match, or ends inside it, or contains it. -/
def overlapB (f t : Nat) (m : SpanMatch) : Bool :=
  (decide (m.mStart ≤ f) && decide (f < m.mEnd)) ||
  (decide (m.mStart < t) && decide (t ≤ m.mEnd)) ||
  (decide (f ≤ m.mStart) && decide (m.mEnd ≤ t))

/-- Outcome of the span locator for a single-line selection. -/
structure LocateResult where
  selFrom : Nat
  selTo : Nat
  initialText : List Char
  activeIndex : Nat
  isExisting : Bool
deriving DecidableEq

/-- The selected substring of a line, `editor.getRange` on columns
`[f, t)` of a single line. -/
def selText (line : List Char) (f t : Nat) : List Char :=
  (line.drop f).take (t - f)

/-- The span locator of `highlightSelection` (main.ts 386-427): if the
selection is itself an exact full-span match, edit it directly; else scan
the line and, at the first match overlapping the selection, expand the
selection to the match bounds and edit that span; else create a new
variant from the literal selection. -/
def locateSpan (line : List Char) (f t : Nat) : LocateResult :=
  match parseFull (selText line f t) with
  | some (inner, ds) => ⟨f, t, inner, digitsToNat ds, true⟩
  | none =>
    match (scanMatches line).find? (overlapB f t) with
    | some m => ⟨m.mStart, m.mEnd, m.inner, digitsToNat m.digits, true⟩
    | none => ⟨f, t, selText line f t, 0, false⟩

/-- Whitespace characters removed by JS `String.prototype.trim` (the
forms that occur in this code base). -/
def isWS (c : Char) : Bool :=
  c == ' ' || c == '\t' || c == '\n' || c == '\r'

/-- Test `v.trim().length === 0`: every character is whitespace. -/
def trimmedEmpty (v : List Char) : Bool := v.all isWS

/-- The modal's working state (`TextInputModal` fields `variants`,
`activeVariantIndex`, `lastNonEmptyVariantIndex`). -/
structure VState where
  variants : List (List Char)
  activeIndex : Nat
  lastNonEmpty : Nat
deriving DecidableEq

/-- Pairs each entry with its index (JS `variants.map((v, i) => ...)`),  paired with its index,
counting from `n`. -/
def withIdxFrom (n : Nat) : List (List Char) → List (Nat × List Char)
  | [] => []
  | v :: vs => (n, v) :: withIdxFrom (n+1) vs

/-- Entries of TextInputModal.ts 238-240:
`variants.map((v,i) => (\x7btext: v, originalIndex: i\x7d)).filter(v => v.text.length > 0)`,
that is, the entries of positive length with their original indices.
Note the filter is on raw length, not trimmed text. -/
def nonEmptyWithIdx (vs : List (List Char)) : List (Nat × List Char) :=
  (withIdxFrom 0 vs).filter (fun p => !p.2.isEmpty)

/-- The for-loop with break of TextInputModal.ts 253-268: position of the
first pair whose original index equals `target`. -/
def findPos (target : Nat) : List (Nat × List Char) → Option Nat
  | [] => none
  | p :: rest => if p.1 == target then some 0 else (findPos target rest).map (· + 1)

/-- Possible outcomes of one `updateVariantsInEditor` run
(TextInputModal.ts 236-299): no write-back, a thrown TypeError, or a
serialized span written back. -/
inductive WriteBack where
  | skipped
  | thrown
  | written (cs : List (List Char)) (k : Nat)
deriving DecidableEq

/-- The serialization decision of `updateVariantsInEditor`
(TextInputModal.ts 236-284): `skipped` (no write-back) when fewer than
two entries have positive length; otherwise the code first reads
`this.variants[this.activeVariantIndex].trim()` with no bounds check
(line 248), which is a TypeError (`thrown`) when the active index is out
of range of the entries; otherwise the filtered candidate texts and the
re-mapped active index are written back (blank non-first active entries
defer to `lastNonEmptyVariantIndex`; a not-found active on the trailing
row falls back to the last filtered position, else to 0). -/
def toSerializable (st : VState) : WriteBack :=
  let ne := nonEmptyWithIdx st.variants
  if 2 ≤ ne.length then
    if st.activeIndex < st.variants.length then
      let isActiveEmpty := trimmedEmpty (st.variants.getD st.activeIndex [])
      let found :=
        if isActiveEmpty && !(st.activeIndex == 0) then findPos st.lastNonEmpty ne
        else findPos st.activeIndex ne
      let newActive :=
        match found with
        | some i => i
        | none =>
          if st.activeIndex == st.variants.length - 1 then ne.length - 1 else 0
      WriteBack.written (ne.map (fun p => p.2)) newActive
    else WriteBack.thrown
  else WriteBack.skipped

/-- The Commit Active Variant handler (TextInputModal.ts 130-144): finds
the active entry among the positive-length entries and returns its text;
does nothing when the active entry was filtered out. -/
def commitActive (st : VState) : Option (List Char) :=
  match (nonEmptyWithIdx st.variants).find? (fun p => p.1 == st.activeIndex) with
  | some p => some p.2
  | none => none

/-- The delete-button handler (TextInputModal.ts 481-515): re-map the
active index (`Math.max(0, index-1)` is `index - 1` in `Nat`), re-derive
`lastNonEmptyVariantIndex` by the descending eligibility loop when it
pointed at the deleted entry, splice the entry out, and repair a sole
remaining blank entry to a single space. -/
def removeAt (st : VState) (i : Nat) : VState :=
  let a1 :=
    if st.activeIndex == i then i - 1
    else if i < st.activeIndex then st.activeIndex - 1
    else st.activeIndex
  let l1 :=
    if st.lastNonEmpty == i then
      match (List.range st.variants.length).reverse.find?
          (fun j => !(j == i) && (!(trimmedEmpty (st.variants.getD j [])) || j == 0)) with
      | some j => j
      | none => st.lastNonEmpty
    else st.lastNonEmpty
  let vs := st.variants.eraseIdx i
  let vs2 := if vs.length == 1 && trimmedEmpty (vs.getD 0 []) then [[' ']] else vs
  ⟨vs2, a1, l1⟩

/-- Behavior of JS `fullMatch.indexOf(ch, start)`: first occurrence of `ch` at or
after position `start`, `none` for -1. -/
def idxOfFrom (ch : Char) : List Char → Nat → Option Nat
  | [], _ => none
  | c :: rest, 0 => if c == ch then some 0 else (idxOfFrom ch rest 0).map (· + 1)
  | _ :: rest, n+1 => (idxOfFrom ch rest n).map (· + 1)

/-- One step of the position loop of main.ts 161-163:
`pos = fullMatch.indexOf('|', pos) + 1` (a failed `indexOf` gives -1,
hence position 0). -/
def posStep (fm : List Char) (pos : Nat) : Nat :=
  match idxOfFrom '|' fm pos with
  | some j => j + 1
  | none => 0

/-- Iterates the position loop `k` times. -/
def posIter (fm : List Char) : Nat → Nat → Nat
  | 0, pos => pos
  | n+1, pos => posIter fm n (posStep fm pos)

/-- The decoration builder's active-candidate offset arithmetic
(main.ts 156-166), relative to the match start: position 2 for index 0,
else the position loop applied `k` times from 0; the end adds the length
of `variantsText.split('|')[k]`, which in JS is an undefined-property
error when `k` is out of range — modelled as `none`. -/
def locateActiveOffsets (fm inner : List Char) (k : Nat) : Option (Nat × Nat) :=
  let pos := if k == 0 then 2 else posIter fm k 0
  ((splitPipe inner)[k]?).map (fun c => (pos, pos + c.length))

/-- The offset where candidate `k` starts inside a serialized span:
2 for the braces plus, for each earlier candidate, its length and one
separator (spec 4.1 formula). -/
def activeStart (cs : List (List Char)) (k : Nat) : Nat :=
  2 + ((cs.take k).map (fun v => v.length + 1)).sum

/-- A candidate usable in a well-formed span: non-empty and free of the
characters `\x7b`, `\x7d`, `|`. -/
def goodEntry (v : List Char) : Bool :=
  !v.isEmpty && v.all (fun c => !(c == '{') && !(c == '}') && !(c == '|'))

/-- Whether `pat` occurs as a contiguous substring of `v`. -/
def hasSubstring (pat v : List Char) : Bool :=
  v.tails.any (fun s => pat.isPrefixOf s)

/-- The spec's delimiter-free condition (section 3): the candidate contains
none of the literal substrings `\x7b\x7b`, `\x7d\x7d`, `|`. -/
def delimFreeB (v : List Char) : Bool :=
  !(hasSubstring ['{', '{'] v) && !(hasSubstring ['}', '}'] v) && !(hasSubstring ['|'] v)

/-- A document piece: a plain stretch of text or one variant span. -/
inductive Piece where
  | plain (s : List Char)
  | vspan (cs : List (List Char)) (k : Nat)
deriving DecidableEq

/-- The document text denoted by a list of pieces. -/
def renderPieces : List Piece → List Char
  | [] => []
  | .plain s :: ps => s ++ renderPieces ps
  | .vspan cs k :: ps => serializeSpan cs k ++ renderPieces ps

/-- The intended resolution: plain stretches verbatim, each span replaced
by its active candidate. -/
def resolvePieces : List Piece → List Char
  | [] => []
  | .plain s :: ps => s ++ resolvePieces ps
  | .vspan cs k :: ps => (cs.getD k []) ++ resolvePieces ps

/-- Number of spans among the pieces. -/
def countSpans : List Piece → Nat
  | [] => 0
  | .plain _ :: ps => countSpans ps
  | .vspan _ _ :: ps => countSpans ps + 1

/-- A well-formed span: at least one candidate, all candidates good, and
the active index in bounds. -/
def wfSpanB (cs : List (List Char)) (k : Nat) : Bool :=
  !cs.isEmpty && cs.all goodEntry && decide (k < cs.length)

/-- Well-formed document: plain stretches contain no `\x7b` (so no match can
begin inside them), spans are well-formed, and no span is immediately
followed by a digit (which the greedy digit group would absorb). -/
def wfPieces : List Piece → Bool
  | [] => true
  | .plain s :: ps => s.all (fun c => !(c == '{')) && wfPieces ps
  | .vspan cs k :: ps =>
    wfSpanB cs k && headNotP isDig (renderPieces ps) && wfPieces ps

/-! ### List scanning helpers -/

theorem isEmpty_false_iff {l : List α} : l.isEmpty = false ↔ l ≠ [] := by
  cases l <;> simp

theorem all_takeWhile (p : α → Bool) : ∀ l : List α, (l.takeWhile p).all p = true
  | [] => rfl
  | c :: rest => by
    by_cases h : p c = true
    · simp [List.takeWhile, h, all_takeWhile p rest]
    · simp [List.takeWhile, h]

theorem headNotP_dropWhile (p : α → Bool) : ∀ l : List α, headNotP p (l.dropWhile p) = true
  | [] => rfl
  | c :: rest => by
    by_cases h : p c = true
    · simp [List.dropWhile, h, headNotP_dropWhile p rest]
    · simp [List.dropWhile, h, headNotP]

theorem takeWhile_app (p : α → Bool) :
    ∀ xs ys : List α, xs.all p = true → headNotP p ys = true →
      (xs ++ ys).takeWhile p = xs := by
  intro xs
  induction xs with
  | nil =>
    intro ys _ h2
    cases ys with
    | nil => rfl
    | cons y ys =>
      simp only [headNotP, Bool.not_eq_true'] at h2
      simp [List.takeWhile, h2]
  | cons x xs ih =>
    intro ys h1 h2
    simp only [List.all_cons, Bool.and_eq_true] at h1
    simp [List.takeWhile, h1.1, ih ys h1.2 h2]

theorem dropWhile_app (p : α → Bool) :
    ∀ xs ys : List α, xs.all p = true → headNotP p ys = true →
      (xs ++ ys).dropWhile p = ys := by
  intro xs
  induction xs with
  | nil =>
    intro ys _ h2
    cases ys with
    | nil => rfl
    | cons y ys =>
      simp only [headNotP, Bool.not_eq_true'] at h2
      simp [List.dropWhile, h2]
  | cons x xs ih =>
    intro ys h1 h2
    simp only [List.all_cons, Bool.and_eq_true] at h1
    simp [List.dropWhile, h1.1, ih ys h1.2 h2]

theorem drop_app_exact : ∀ (xs ys : List α) (n : Nat),
    (xs ++ ys).drop (xs.length + n) = ys.drop n
  | [], _, _ => by simp
  | x :: xs, ys, n => by
    simp only [List.cons_append, List.length_cons]
    have : xs.length + 1 + n = (xs.length + n) + 1 := by omega
    rw [this, List.drop_succ_cons, drop_app_exact xs ys n]

theorem getD_mem_of_lt : ∀ (l : List (List Char)) (k : Nat), k < l.length →
    l.getD k [] ∈ l
  | v :: rest, 0, _ => List.mem_cons_self v rest
  | v :: rest, k+1, h => by
    have := getD_mem_of_lt rest k (by simpa using h)
    simpa [List.getD] using Or.inr this

theorem getElem?_eq_getD : ∀ (l : List (List Char)) (k : Nat), k < l.length →
    l[k]? = some (l.getD k [])
  | v :: rest, 0, _ => by simp
  | v :: rest, k+1, h => by
    simpa using getElem?_eq_getD rest k (by simpa using h)

/-! ### Decimal digits -/

theorem digitCh_toNat {d : Nat} (h : d < 10) : (digitCh d).toNat - 48 = d := by
  interval_cases d <;> rfl

theorem isDig_digitCh {d : Nat} (h : d < 10) : isDig (digitCh d) = true := by
  interval_cases d <;> rfl

theorem natReprAux_all_isDig : ∀ f n, (natReprAux f n).all isDig = true
  | 0, n => by cases n <;> rfl
  | _+1, 0 => rfl
  | f+1, n+1 => by
    simp only [natReprAux, List.all_cons, Bool.and_eq_true]
    exact ⟨isDig_digitCh (Nat.mod_lt _ (by omega)), natReprAux_all_isDig f ((n+1) / 10)⟩

theorem natRepr_all_isDig (n : Nat) : (natRepr n).all isDig = true := by
  unfold natRepr
  by_cases h : n = 0
  · simp [h]; rfl
  · simp only [h, if_false]
    rw [List.all_reverse]
    exact natReprAux_all_isDig n n

theorem natRepr_ne_nil (n : Nat) : natRepr n ≠ [] := by
  unfold natRepr
  by_cases h : n = 0
  · simp [h]
  · simp only [h, if_false]
    obtain ⟨n', rfl⟩ : ∃ n', n = n' + 1 := ⟨n - 1, by omega⟩
    simp [natReprAux]

theorem leVal_natReprAux : ∀ f n, n ≤ f → leVal (natReprAux f n) = n
  | 0, _, h => by
    have : _ = 0 := Nat.le_zero.mp h
    simp [this, natReprAux, leVal]
  | _+1, 0, _ => rfl
  | f+1, n+1, h => by
    have hdiv : (n+1) / 10 ≤ f := by
      have := Nat.div_le_self (n+1) 10
      have h2 : (n+1) / 10 < n + 1 := Nat.div_lt_self (by omega) (by omega)
      omega
    simp only [natReprAux, leVal]
    rw [digitCh_toNat (Nat.mod_lt _ (by omega)), leVal_natReprAux f ((n+1)/10) hdiv]
    omega

theorem foldl_digits_reverse : ∀ (l : List Char) (a : Nat),
    (l.reverse).foldl (fun a c => a * 10 + (c.toNat - 48)) a =
      a * 10 ^ l.length + leVal l
  | [], a => by simp [leVal]
  | c :: r, a => by
    simp only [List.reverse_cons, List.foldl_append, List.foldl_cons, List.foldl_nil,
      foldl_digits_reverse r a, leVal, List.length_cons]
    ring

theorem digitsToNat_natRepr (n : Nat) : digitsToNat (natRepr n) = n := by
  unfold natRepr digitsToNat
  by_cases h : n = 0
  · simp [h]
  · simp only [h, if_false]
    rw [foldl_digits_reverse, leVal_natReprAux n n (Nat.le_refl n)]
    simp

/-! ### Splitting and joining on pipes -/

theorem splitPipe_nopipe : ∀ v : List Char,
    v.all (fun c => !(c == '|')) = true → splitPipe v = [v]
  | [], _ => rfl
  | c :: rest, h => by
    simp only [List.all_cons, Bool.and_eq_true, Bool.not_eq_true'] at h
    simp [splitPipe, h.1, splitPipe_nopipe rest h.2]

theorem splitPipe_app : ∀ (v rest : List Char),
    v.all (fun c => !(c == '|')) = true →
    splitPipe (v ++ '|' :: rest) = v :: splitPipe rest
  | [], rest, _ => by simp [splitPipe]
  | c :: v, rest, h => by
    simp only [List.all_cons, Bool.and_eq_true, Bool.not_eq_true'] at h
    have ih := splitPipe_app v rest h.2
    simp [splitPipe, h.1, ih]

theorem splitPipe_joinPipe : ∀ cs : List (List Char), cs ≠ [] →
    (∀ v ∈ cs, v.all (fun c => !(c == '|')) = true) →
    splitPipe (joinPipe cs) = cs
  | [], h, _ => absurd rfl h
  | [v], _, hall => by
    simp only [joinPipe]
    exact splitPipe_nopipe v (hall v (List.mem_singleton.mpr rfl))
  | v :: v2 :: rest, _, hall => by
    simp only [joinPipe]
    rw [splitPipe_app v (joinPipe (v2 :: rest)) (hall v (by simp))]
    rw [splitPipe_joinPipe (v2 :: rest) (by simp) (fun w hw => hall w (by simp [hw]))]

theorem joinPipe_all (p : Char → Bool) (hp : p '|' = true) :
    ∀ cs : List (List Char), (∀ v ∈ cs, v.all p = true) →
      (joinPipe cs).all p = true
  | [], _ => rfl
  | [v], hall => hall v (by simp)
  | v :: v2 :: rest, hall => by
    simp only [joinPipe, List.all_append, Bool.and_eq_true, List.all_cons]
    exact ⟨hall v (by simp), hp, joinPipe_all p hp (v2 :: rest) (fun w hw => hall w (by simp [hw]))⟩

theorem joinPipe_ne_nil : ∀ (v : List Char) (rest : List (List Char)),
    v ≠ [] ∨ rest ≠ [] → joinPipe (v :: rest) ≠ []
  | v, [], h => by
    simp only [joinPipe]
    rcases h with h | h
    · exact h
    · exact absurd rfl h
  | v, v2 :: rest, _ => by
    simp only [joinPipe]
    cases v <;> simp

/-! ### Properties of the regex matcher -/

theorem tryMatch_none_of_head {c : Char} (h : c ≠ '{') (cs : List Char) :
    tryMatch (c :: cs) = none := by
  have hb : (c == '{') = false := by simp [h]
  cases cs with
  | nil => rfl
  | cons c2 r => simp [tryMatch, hb]

theorem tryMatch_decomp {cs inner ds rest : List Char}
    (h : tryMatch cs = some (inner, ds, rest)) :
    cs = matchText inner ds ++ rest ∧ inner ≠ [] ∧ inner.all notBrace = true ∧
      ds ≠ [] ∧ ds.all isDig = true ∧ headNotP isDig rest = true := by
  match cs with
  | [] => simp [tryMatch] at h
  | [c1] => simp [tryMatch] at h
  | c1 :: c2 :: r =>
    simp only [tryMatch] at h
    by_cases hb : (c1 == '{' && c2 == '{') = true
    · rw [if_pos hb] at h
      simp only [Bool.and_eq_true, beq_iff_eq] at hb
      obtain ⟨rfl, rfl⟩ := hb
      rcases hdrop : r.dropWhile notBrace with _ | ⟨d1, _ | ⟨d2, _ | ⟨d3, r2⟩⟩⟩ <;>
        rw [hdrop] at h <;> simp at h
      obtain ⟨⟨⟨rfl, rfl⟩, rfl⟩, ⟨hrne, hdne⟩, hinner, hds, hrest⟩ := h
      have hr : r = inner ++ '}' :: '}' :: '^' :: r2 := by
        rw [← hinner, ← hdrop, List.takeWhile_append_dropWhile]
      have hr2 : r2 = ds ++ rest := by
        rw [← hds, ← hrest, List.takeWhile_append_dropWhile]
      refine ⟨?_, ?_, ?_, ?_, ?_, ?_⟩
      · rw [hr, hr2, matchText]
        simp
      · obtain ⟨hlen, hhd⟩ := hrne
        rw [← hinner]
        rcases r with _ | ⟨r0, rr⟩
        · simp at hlen
        · simp only [List.getElem_cons_zero] at hhd
          simp [List.takeWhile, hhd]
      · rw [← hinner]; exact all_takeWhile notBrace r
      · obtain ⟨hlen, hhd⟩ := hdne
        rw [← hds]
        rcases r2 with _ | ⟨x0, xx⟩
        · simp at hlen
        · simp only [List.getElem_cons_zero] at hhd
          simp [List.takeWhile, hhd]
      · rw [← hds]; exact all_takeWhile isDig r2
      · rw [← hrest]; exact headNotP_dropWhile isDig r2
    · rw [if_neg hb] at h
      simp at h

theorem tryMatch_mk {inner ds v : List Char}
    (hinner : inner ≠ []) (hib : inner.all notBrace = true)
    (hds : ds ≠ []) (hdig : ds.all isDig = true)
    (hv : headNotP isDig v = true) :
    tryMatch (matchText inner ds ++ v) = some (inner, ds, v) := by
  have harr : matchText inner ds ++ v =
      '{' :: '{' :: (inner ++ '}' :: '}' :: '^' :: (ds ++ v)) := by
    simp [matchText]
  rw [harr]
  have htake : (inner ++ '}' :: '}' :: '^' :: (ds ++ v)).takeWhile notBrace = inner :=
    takeWhile_app notBrace inner _ hib (by simp [headNotP, notBrace])
  have hdropw : (inner ++ '}' :: '}' :: '^' :: (ds ++ v)).dropWhile notBrace =
      '}' :: '}' :: '^' :: (ds ++ v) :=
    dropWhile_app notBrace inner _ hib (by simp [headNotP, notBrace])
  have htd : (ds ++ v).takeWhile isDig = ds := takeWhile_app isDig ds v hdig hv
  have hdd : (ds ++ v).dropWhile isDig = v := dropWhile_app isDig ds v hdig hv
  simp only [tryMatch, htake, hdropw, htd, hdd]
  have h1 : inner.isEmpty = false := by simpa using hinner
  have h2 : ds.isEmpty = false := by simpa using hds
  simp [h1, h2]

theorem tryMatch_rest_lt {cs inner ds rest : List Char}
    (h : tryMatch cs = some (inner, ds, rest)) : rest.length < cs.length := by
  obtain ⟨heq, -, -, -, -, -⟩ := tryMatch_decomp h
  rw [heq]
  simp [matchText]
  omega

/-! ### Fuel elimination for `commitAllF` -/

theorem commitAllF_succ : ∀ (f : Nat) (cs : List Char), cs.length ≤ f →
    commitAllF (f + 1) cs = commitAllF f cs := by
  intro f
  induction f using Nat.strong_induction_on with
  | _ f ih =>
    intro cs hf
    match f, cs with
    | 0, cs =>
      have : cs = [] := by
        cases cs with
        | nil => rfl
        | cons c cs => simp at hf
      rw [this]
      rfl
    | f+1, [] => rfl
    | f+1, c :: cs =>
      rcases hm : tryMatch (c :: cs) with - | ⟨inner, ds, rest⟩
      · simp only [commitAllF, hm]
        simp only [List.length_cons] at hf
        rw [ih f (by omega) cs (by omega)]
      · have hlt := tryMatch_rest_lt hm
        simp only [commitAllF, hm]
        simp only [List.length_cons] at hf
        simp only [List.length_cons] at hlt
        rw [ih f (by omega) rest (by omega)]

theorem commitAllF_eq_commitAll : ∀ (f : Nat) (cs : List Char), cs.length ≤ f →
    commitAllF f cs = commitAll cs := by
  intro f
  induction f with
  | zero =>
    intro cs hf
    have : cs = [] := by
      cases cs with
      | nil => rfl
      | cons c cs => simp at hf
    rw [this]; rfl
  | succ f ih =>
    intro cs hf
    by_cases h : cs.length ≤ f
    · rw [commitAllF_succ f cs h, ih cs h]
    · have : cs.length = f + 1 := by omega
      rw [commitAll, this]

theorem commitAll_cons_none {c : Char} {cs : List Char}
    (h : tryMatch (c :: cs) = none) :
    commitAll (c :: cs) = (c :: (commitAll cs).1, (commitAll cs).2) := by
  show commitAllF (c :: cs).length (c :: cs) = _
  simp only [List.length_cons, commitAllF, h]
  rw [commitAllF_eq_commitAll cs.length cs (Nat.le_refl _)]

theorem commitAll_eq_some {l inner ds rest : List Char}
    (h : tryMatch l = some (inner, ds, rest)) :
    commitAll l =
      (if digitsToNat ds < (splitPipe inner).length then
        ((splitPipe inner).getD (digitsToNat ds) [] ++ (commitAll rest).1, (commitAll rest).2 + 1)
      else
        (matchText inner ds ++ (commitAll rest).1, (commitAll rest).2)) := by
  match l with
  | [] => simp [tryMatch] at h
  | c :: cs =>
    have hlt := tryMatch_rest_lt h
    simp only [List.length_cons] at hlt
    show commitAllF (c :: cs).length (c :: cs) = _
    simp only [List.length_cons, commitAllF, h]
    rw [commitAllF_eq_commitAll cs.length rest (by omega)]

/-! ### Structural behavior of the resolver -/

theorem commitAll_nil : commitAll [] = ([], 0) := rfl

theorem commitAll_append_plain : ∀ (s v : List Char),
    s.all (fun c => !(c == '{')) = true →
    commitAll (s ++ v) = (s ++ (commitAll v).1, (commitAll v).2)
  | [], v, _ => by simp
  | c :: s, v, h => by
    simp only [List.all_cons, Bool.and_eq_true, Bool.not_eq_true'] at h
    have hc : c ≠ '{' := by
      intro hc
      rw [hc] at h
      simp at h
    have hnone := tryMatch_none_of_head hc (s ++ v)
    rw [List.cons_append, commitAll_cons_none hnone,
      commitAll_append_plain s v h.2]
    rfl

theorem commitAll_plain (s : List Char) (h : s.all (fun c => !(c == '{')) = true) :
    commitAll s = (s, 0) := by
  have := commitAll_append_plain s [] h
  simpa [commitAll_nil] using this

theorem commitAll_span {inner ds v : List Char}
    (hinner : inner ≠ []) (hib : inner.all notBrace = true)
    (hds : ds ≠ []) (hdig : ds.all isDig = true)
    (hv : headNotP isDig v = true)
    (hk : digitsToNat ds < (splitPipe inner).length) :
    commitAll (matchText inner ds ++ v) =
      ((splitPipe inner).getD (digitsToNat ds) [] ++ (commitAll v).1,
        (commitAll v).2 + 1) := by
  rw [commitAll_eq_some (tryMatch_mk hinner hib hds hdig hv), if_pos hk]

theorem commitAll_span_oob {inner ds v : List Char}
    (hinner : inner ≠ []) (hib : inner.all notBrace = true)
    (hds : ds ≠ []) (hdig : ds.all isDig = true)
    (hv : headNotP isDig v = true)
    (hk : (splitPipe inner).length ≤ digitsToNat ds) :
    commitAll (matchText inner ds ++ v) =
      (matchText inner ds ++ (commitAll v).1, (commitAll v).2) := by
  rw [commitAll_eq_some (tryMatch_mk hinner hib hds hdig hv),
    if_neg (by omega)]

/-! ### Good entries and well-formed spans -/

theorem goodEntry_ne_nil {v : List Char} (h : goodEntry v = true) : v ≠ [] := by
  simp only [goodEntry, Bool.and_eq_true, Bool.not_eq_true'] at h
  exact isEmpty_false_iff.mp h.1

theorem goodEntry_all_notBrace {v : List Char} (h : goodEntry v = true) :
    v.all notBrace = true := by
  simp only [goodEntry, Bool.and_eq_true] at h
  rw [List.all_eq_true] at h ⊢
  intro c hc
  have := h.2 c hc
  simp only [Bool.and_eq_true] at this
  simp [notBrace, this.1.1, this.1.2]

theorem goodEntry_noPipe {v : List Char} (h : goodEntry v = true) :
    v.all (fun c => !(c == '|')) = true := by
  simp only [goodEntry, Bool.and_eq_true] at h
  rw [List.all_eq_true] at h ⊢
  intro c hc
  have := h.2 c hc
  simp only [Bool.and_eq_true] at this
  exact this.2

theorem goodEntry_no_lbrace {v : List Char} (h : goodEntry v = true) :
    v.all (fun c => !(c == '{')) = true := by
  simp only [goodEntry, Bool.and_eq_true] at h
  rw [List.all_eq_true] at h ⊢
  intro c hc
  have := h.2 c hc
  simp only [Bool.and_eq_true] at this
  exact this.1.1

theorem serializeSpan_eq_matchText (cs : List (List Char)) (k : Nat) :
    serializeSpan cs k = matchText (joinPipe cs) (natRepr k) := rfl

theorem wfSpanB_parts {cs : List (List Char)} {k : Nat} (h : wfSpanB cs k = true) :
    cs ≠ [] ∧ (∀ v ∈ cs, goodEntry v = true) ∧ k < cs.length := by
  simp only [wfSpanB, Bool.and_eq_true, decide_eq_true_eq, Bool.not_eq_true'] at h
  exact ⟨isEmpty_false_iff.mp h.1.1, List.all_eq_true.mp h.1.2, h.2⟩

theorem joinPipe_wf_ne_nil {cs : List (List Char)} (hne : cs ≠ [])
    (hall : ∀ v ∈ cs, goodEntry v = true) : joinPipe cs ≠ [] := by
  match cs, hne with
  | v :: rest, _ =>
    exact joinPipe_ne_nil v rest (Or.inl (goodEntry_ne_nil (hall v (by simp))))

theorem joinPipe_wf_notBrace {cs : List (List Char)}
    (hall : ∀ v ∈ cs, goodEntry v = true) : (joinPipe cs).all notBrace = true :=
  joinPipe_all notBrace (by rfl) cs (fun v hv => goodEntry_all_notBrace (hall v hv))

theorem splitPipe_joinPipe_wf {cs : List (List Char)} (hne : cs ≠ [])
    (hall : ∀ v ∈ cs, goodEntry v = true) : splitPipe (joinPipe cs) = cs :=
  splitPipe_joinPipe cs hne (fun v hv => goodEntry_noPipe (hall v hv))

/-- Resolving the serialized text of one well-formed span followed by text
that does not start with a digit: the span resolves to its active
candidate (and is counted once), and scanning resumes at the rest. -/
theorem commitAll_wfspan {cs : List (List Char)} {k : Nat} {v : List Char}
    (hwf : wfSpanB cs k = true) (hv : headNotP isDig v = true) :
    commitAll (serializeSpan cs k ++ v) =
      (cs.getD k [] ++ (commitAll v).1, (commitAll v).2 + 1) := by
  obtain ⟨hne, hall, hk⟩ := wfSpanB_parts hwf
  rw [serializeSpan_eq_matchText]
  rw [commitAll_span (joinPipe_wf_ne_nil hne hall) (joinPipe_wf_notBrace hall)
    (natRepr_ne_nil k) (natRepr_all_isDig k) hv
    (by rw [splitPipe_joinPipe_wf hne hall, digitsToNat_natRepr]; exact hk)]
  rw [splitPipe_joinPipe_wf hne hall, digitsToNat_natRepr]

/-- Resolving a well-formed document: plain stretches are copied verbatim
and every span is replaced by its active candidate, each counted once. -/
theorem commitAll_renderPieces : ∀ ps : List Piece, wfPieces ps = true →
    commitAll (renderPieces ps) = (resolvePieces ps, countSpans ps)
  | [], _ => rfl
  | .plain s :: ps, h => by
    simp only [wfPieces, Bool.and_eq_true] at h
    simp only [renderPieces, resolvePieces, countSpans]
    rw [commitAll_append_plain s _ h.1, commitAll_renderPieces ps h.2]
  | .vspan cs k :: ps, h => by
    simp only [wfPieces, Bool.and_eq_true] at h
    simp only [renderPieces, resolvePieces, countSpans]
    rw [commitAll_wfspan h.1.1 h.1.2, commitAll_renderPieces ps h.2]

theorem resolvePieces_no_lbrace : ∀ ps : List Piece, wfPieces ps = true →
    (resolvePieces ps).all (fun c => !(c == '{')) = true
  | [], _ => rfl
  | .plain s :: ps, h => by
    simp only [wfPieces, Bool.and_eq_true] at h
    simp only [resolvePieces, List.all_append, Bool.and_eq_true]
    exact ⟨h.1, resolvePieces_no_lbrace ps h.2⟩
  | .vspan cs k :: ps, h => by
    simp only [wfPieces, Bool.and_eq_true] at h
    obtain ⟨hne, hall, hk⟩ := wfSpanB_parts h.1.1
    simp only [resolvePieces, List.all_append, Bool.and_eq_true]
    refine ⟨goodEntry_no_lbrace (hall _ (getD_mem_of_lt cs k hk)), ?_⟩
    exact resolvePieces_no_lbrace ps h.2

/-! ### Absence of span substrings -/

theorem isSpanToken_matchText {inner ds : List Char}
    (hinner : inner ≠ []) (hib : inner.all notBrace = true)
    (hds : ds ≠ []) (hdig : ds.all isDig = true) :
    isSpanToken (matchText inner ds) = true := by
  have := tryMatch_mk (v := []) hinner hib hds hdig (by rfl)
  rw [List.append_nil] at this
  simp [isSpanToken, this]

theorem containsSpanB_cons_false {c : Char} {cs : List Char}
    (h : containsSpanB (c :: cs) = false) : containsSpanB cs = false := by
  simp only [containsSpanB, List.tails_cons, List.any_cons, Bool.or_eq_false_iff] at h
  exact h.2

theorem commitAll_no_span : ∀ t : List Char, containsSpanB t = false →
    commitAll t = (t, 0)
  | [], _ => rfl
  | c :: cs, h => by
    rcases hm : tryMatch (c :: cs) with - | ⟨inner, ds, rest⟩
    · rw [commitAll_cons_none hm, commitAll_no_span cs (containsSpanB_cons_false h)]
    · exfalso
      obtain ⟨heq, hinner, hib, hds, hdig, -⟩ := tryMatch_decomp hm
      have htok := isSpanToken_matchText hinner hib hds hdig
      have hmem1 : (c :: cs) ∈ (c :: cs).tails := (List.mem_tails _ _).mpr (List.suffix_refl _)
      have hmem2 : matchText inner ds ∈ (c :: cs).inits := by
        rw [List.mem_inits]
        exact ⟨rest, heq.symm⟩
      have : containsSpanB (c :: cs) = true := by
        simp only [containsSpanB, List.any_eq_true]
        exact ⟨c :: cs, hmem1, matchText inner ds, hmem2, htok⟩
      rw [this] at h
      simp at h

/-! ### First-match characterization of find? -/

theorem find?_first {p : α → Bool} : ∀ {l : List α} {a : α}, l.find? p = some a →
    p a = true ∧ ∃ pre post, l = pre ++ a :: post ∧ ∀ x ∈ pre, p x = false := by
  intro l
  induction l with
  | nil => intro a h; simp at h
  | cons c rest ih =>
    intro a h
    by_cases hc : p c = true
    · rw [List.find?_cons_of_pos rest hc] at h
      obtain rfl : c = a := by simpa using h
      exact ⟨hc, [], rest, rfl, by simp⟩
    · rw [List.find?_cons_of_neg rest (by simpa using hc)] at h
      obtain ⟨hpa, pre, post, heq, hpre⟩ := ih h
      refine ⟨hpa, c :: pre, post, by simp [heq], ?_⟩
      intro x hx
      rcases List.mem_cons.mp hx with rfl | hx
      · simpa using hc
      · exact hpre x hx

/-! ### Indexed filtering for the modal model -/

theorem findPos_withIdx : ∀ (vs : List (List Char)) (n j : Nat),
    j < vs.length → (vs.getD j []).isEmpty = false →
    findPos (n + j) ((withIdxFrom n vs).filter (fun p => !p.2.isEmpty)) =
      some (((vs.take j).filter (fun v => !v.isEmpty)).length)
  | [], n, j, hj, _ => by simp at hj
  | v :: rest, n, 0, _, hne => by
    simp only [List.getD_cons_zero] at hne
    simp [withIdxFrom, List.filter_cons, hne, findPos]
  | v :: rest, n, j+1, hj, hne => by
    simp only [List.getD_cons_succ] at hne
    have ih := findPos_withIdx rest (n+1) j (by simpa using hj) hne
    have harith : n + (j + 1) = (n + 1) + j := by omega
    by_cases hv : v.isEmpty = true
    · simp only [withIdxFrom, List.filter_cons, hv, Bool.not_true, List.take_succ_cons]
      simp only [harith]
      exact ih
    · have hv' : v.isEmpty = false := by simpa using hv
      have hne2 : (n == n + 1 + j) = false := by
        simp only [beq_eq_false_iff_ne]
        omega
      simp only [withIdxFrom, List.filter_cons, hv', Bool.not_false, if_true,
        List.take_succ_cons]
      simp only [findPos, hne2, Bool.false_eq_true, if_false, harith, ih]
      simp [List.filter_cons, hv']

theorem length_filter_withIdx : ∀ (vs : List (List Char)) (n : Nat),
    ((withIdxFrom n vs).filter (fun p => !p.2.isEmpty)).length =
      (vs.filter (fun v => !v.isEmpty)).length
  | [], _ => rfl
  | v :: rest, n => by
    by_cases hv : v.isEmpty = true
    · simp [withIdxFrom, List.filter_cons, hv, length_filter_withIdx rest (n+1)]
    · have hv' : v.isEmpty = false := by simpa using hv
      simp [withIdxFrom, List.filter_cons, hv', length_filter_withIdx rest (n+1)]

/-! ### Erasure index arithmetic -/

theorem eraseIdx_getD_lt : ∀ (l : List (List Char)) (i j : Nat), j < i →
    (l.eraseIdx i).getD j [] = l.getD j []
  | [], _, _, _ => by simp
  | v :: rest, 0, j, hj => by omega
  | v :: rest, i+1, 0, _ => by simp [List.eraseIdx]
  | v :: rest, i+1, j+1, hj => by
    simp only [List.eraseIdx, List.getD_cons_succ]
    exact eraseIdx_getD_lt rest i j (by omega)

theorem eraseIdx_getD_ge : ∀ (l : List (List Char)) (i j : Nat), i ≤ j →
    (l.eraseIdx i).getD j [] = l.getD (j+1) []
  | [], _, _, _ => by simp
  | v :: rest, 0, j, _ => by simp [List.eraseIdx]
  | v :: rest, i+1, 0, h => by omega
  | v :: rest, i+1, j+1, h => by
    simp only [List.eraseIdx, List.getD_cons_succ]
    exact eraseIdx_getD_ge rest i j (by omega)

theorem length_eraseIdx_of_lt : ∀ (l : List (List Char)) (i : Nat), i < l.length →
    (l.eraseIdx i).length = l.length - 1
  | [], _, h => by simp at h
  | v :: rest, 0, _ => by simp [List.eraseIdx]
  | v :: rest, i+1, h => by
    simp only [List.eraseIdx, List.length_cons]
    rw [length_eraseIdx_of_lt rest i (by simpa using h)]
    simp only [List.length_cons] at h
    omega

/-! ### Position arithmetic for the decoration builder -/

theorem idxOfFrom_found (ch : Char) : ∀ (l : List Char) (p : Nat) (xs ys : List Char),
    l.drop p = xs ++ ch :: ys → xs.all (fun c => !(c == ch)) = true →
    idxOfFrom ch l p = some (p + xs.length)
  | [], p, xs, ys, hdrop, _ => by
    simp at hdrop
  | c :: rest, 0, xs, ys, hdrop, hall => by
    simp only [List.drop_zero] at hdrop
    cases xs with
    | nil =>
      simp only [List.nil_append] at hdrop
      injection hdrop with h1 h2
      subst h1
      subst h2
      simp [idxOfFrom]
    | cons x xs' =>
      simp only [List.cons_append] at hdrop
      injection hdrop with h1 h2
      subst h1
      subst h2
      simp only [List.all_cons, Bool.and_eq_true, Bool.not_eq_true'] at hall
      have ih := idxOfFrom_found ch (xs' ++ ch :: ys) 0 xs' ys (by simp) hall.2
      simp only [idxOfFrom, hall.1, ih]
      simp
  | c :: rest, p+1, xs, ys, hdrop, hall => by
    simp only [List.drop_succ_cons] at hdrop
    have ih := idxOfFrom_found ch rest p xs ys hdrop hall
    simp only [idxOfFrom, ih]
    simp only [Option.map_some']
    congr 1
    omega

theorem getElem?_none_of_le : ∀ (l : List (List Char)) (k : Nat), l.length ≤ k →
    l[k]? = none
  | [], k, _ => by simp
  | v :: rest, k+1, h => by
    simpa using getElem?_none_of_le rest k (by simpa using h)

theorem drop_getD_cons : ∀ (cs : List (List Char)) (m : Nat), m < cs.length →
    cs.drop m = cs.getD m [] :: cs.drop (m+1)
  | v :: rest, 0, _ => by simp
  | v :: rest, m+1, h => by
    simp only [List.drop_succ_cons, List.getD_cons_succ]
    exact drop_getD_cons rest m (by simpa using h)

theorem sum_take_succ (f : List Char → Nat) :
    ∀ (cs : List (List Char)) (m : Nat), m < cs.length →
    ((cs.take (m+1)).map f).sum = ((cs.take m).map f).sum + f (cs.getD m [])
  | v :: rest, 0, _ => by simp
  | v :: rest, m+1, h => by
    simp only [List.take_succ_cons, List.map_cons, List.sum_cons, List.getD_cons_succ]
    rw [sum_take_succ f rest m (by simpa using h)]
    omega

theorem drop_joinPipe : ∀ (cs : List (List Char)) (k : Nat) (fmtail : List Char),
    k < cs.length →
    List.drop (((cs.take k).map (fun v => v.length + 1)).sum) (joinPipe cs ++ fmtail) =
      joinPipe (cs.drop k) ++ fmtail
  | cs, 0, fmtail, _ => by simp
  | [], k+1, _, h => by simp at h
  | [v], k+1, _, h => by simp at h
  | v :: v2 :: rest, k+1, fmtail, h => by
    simp only [joinPipe, List.take_succ_cons, List.map_cons, List.sum_cons,
      List.drop_succ_cons]
    have harr : (v ++ '|' :: joinPipe (v2 :: rest)) ++ fmtail =
        (v ++ ['|']) ++ (joinPipe (v2 :: rest) ++ fmtail) := by simp
    rw [harr]
    have hlen : v.length + 1 + ((List.take k (v2 :: rest)).map (fun v => v.length + 1)).sum =
        (v ++ ['|']).length + ((List.take k (v2 :: rest)).map (fun v => v.length + 1)).sum := by
      simp
    rw [hlen, drop_app_exact]
    exact drop_joinPipe (v2 :: rest) k fmtail (by simpa using h)

theorem posStep_activeStart {cs : List (List Char)} {fmtail : List Char}
    (hall : ∀ v ∈ cs, goodEntry v = true) (m : Nat) (hm : m + 1 < cs.length) :
    posStep ('{' :: '{' :: (joinPipe cs ++ fmtail)) (activeStart cs m) =
      activeStart cs (m+1) := by
  have hdrop : ('{' :: '{' :: (joinPipe cs ++ fmtail)).drop (activeStart cs m) =
      joinPipe (cs.drop m) ++ fmtail := by
    unfold activeStart
    rw [show 2 + ((cs.take m).map (fun v => v.length + 1)).sum =
      ((cs.take m).map (fun v => v.length + 1)).sum + 1 + 1 from by omega]
    simp only [List.drop_succ_cons]
    exact drop_joinPipe cs m fmtail (by omega)
  have hsplit : cs.drop m = cs.getD m [] :: cs.drop (m+1) := drop_getD_cons cs m (by omega)
  have hne2 : cs.drop (m+1) ≠ [] := by
    intro hcon
    have := congrArg List.length hcon
    simp at this
    omega
  have hjp : joinPipe (cs.drop m) = cs.getD m [] ++ '|' :: joinPipe (cs.drop (m+1)) := by
    rw [hsplit]
    rcases hd : cs.drop (m+1) with _ | ⟨w, ws⟩
    · exact absurd hd hne2
    · simp [joinPipe]
  have hnp : (cs.getD m []).all (fun c => !(c == '|')) = true :=
    goodEntry_noPipe (hall _ (getD_mem_of_lt cs m (by omega)))
  have hfound := idxOfFrom_found '|' ('{' :: '{' :: (joinPipe cs ++ fmtail))
    (activeStart cs m) (cs.getD m []) (joinPipe (cs.drop (m+1)) ++ fmtail)
    (by rw [hdrop, hjp]; simp) hnp
  simp only [posStep, hfound]
  unfold activeStart
  rw [sum_take_succ _ cs m (by omega)]
  omega

theorem posStep_zero {cs : List (List Char)} {fmtail : List Char}
    (hall : ∀ v ∈ cs, goodEntry v = true) (hlen : 2 ≤ cs.length) :
    posStep ('{' :: '{' :: (joinPipe cs ++ fmtail)) 0 = activeStart cs 1 := by
  rcases cs with _ | ⟨v, _ | ⟨v2, rest⟩⟩
  · simp at hlen
  · simp at hlen
  · have hnp : ('{' :: '{' :: v).all (fun c => !(c == '|')) = true := by
      simp only [List.all_cons, Bool.and_eq_true]
      exact ⟨by rfl, by rfl, goodEntry_noPipe (hall v (by simp))⟩
    have harr : '{' :: '{' :: (joinPipe (v :: v2 :: rest) ++ fmtail) =
        ('{' :: '{' :: v) ++ '|' :: (joinPipe (v2 :: rest) ++ fmtail) := by
      simp [joinPipe]
    have hfound := idxOfFrom_found '|' ('{' :: '{' :: (joinPipe (v :: v2 :: rest) ++ fmtail))
      0 ('{' :: '{' :: v) (joinPipe (v2 :: rest) ++ fmtail) (by rw [harr]; simp) hnp
    simp only [posStep, hfound]
    unfold activeStart
    simp
    omega

theorem posIter_activeStart {cs : List (List Char)} {fmtail : List Char}
    (hall : ∀ v ∈ cs, goodEntry v = true) :
    ∀ (j m : Nat), m + j < cs.length →
    posIter ('{' :: '{' :: (joinPipe cs ++ fmtail)) j (activeStart cs m) =
      activeStart cs (m + j)
  | 0, m, _ => rfl
  | j+1, m, h => by
    unfold posIter
    rw [posStep_activeStart hall m (by omega)]
    rw [posIter_activeStart hall j (m+1) (by omega)]
    congr 1
    omega

theorem posIter_from_zero {cs : List (List Char)} {fmtail : List Char}
    (hall : ∀ v ∈ cs, goodEntry v = true) {k : Nat} (h1 : 1 ≤ k) (h2 : k < cs.length) :
    posIter ('{' :: '{' :: (joinPipe cs ++ fmtail)) k 0 = activeStart cs k := by
  obtain ⟨j, rfl⟩ : ∃ j, k = j + 1 := ⟨k - 1, by omega⟩
  unfold posIter
  rw [posStep_zero hall (by omega)]
  rw [posIter_activeStart hall j 1 (by omega)]
  congr 1
  omega

/-! ### Claim C1: round trip of the wire format -/

/-- C1 (counterexample): the candidate list `["a\x7bb", "c"]` is delimiter-free
in the spec's stated sense (no entry contains the literal substrings
`\x7b\x7b`, `\x7d\x7d`, or `|`), its entries are non-empty, its length is 2, and
activeIndex 0 is valid; yet the serialized text does not even parse (a
single `\x7b` inside an entry breaks the `[^{}]` inner class), so
parse∘serialize does not reproduce the input, contradicting the claim as
stated. -/
theorem c1_roundtrip_cex :
    ([strL "a\x7bb", strL "c"].all delimFreeB = true ∧
      [strL "a\x7bb", strL "c"].all (fun v => !v.isEmpty) = true ∧
      2 ≤ [strL "a\x7bb", strL "c"].length) ∧
    parseSpan (serializeSpan [strL "a\x7bb", strL "c"] 0) = none ∧
    parseSpan (serializeSpan [strL "a\x7bb", strL "c"] 0) ≠
      some ([strL "a\x7bb", strL "c"], 0) := by
  decide

/-- C1 (amended): for every candidate list of length at least 2 whose
entries are non-empty and contain none of the characters `\x7b`, `\x7d`, `|`
(character-wise freedom, strictly stronger than the spec's substring
condition), and every in-bounds activeIndex, parsing the serialized span
text reproduces exactly the same candidate list and activeIndex. -/
theorem c1_roundtrip (cs : List (List Char)) (k : Nat)
    (hlen : 2 ≤ cs.length) (hgood : cs.all goodEntry = true)
    (hk : k < cs.length) :
    parseSpan (serializeSpan cs k) = some (cs, k) := by
  have hall := List.all_eq_true.mp hgood
  have hne : cs ≠ [] := by
    intro h
    rw [h] at hlen
    simp at hlen
  have htm : tryMatch (matchText (joinPipe cs) (natRepr k)) =
      some (joinPipe cs, natRepr k, []) := by
    have := tryMatch_mk (v := []) (joinPipe_wf_ne_nil hne hall)
      (joinPipe_wf_notBrace hall) (natRepr_ne_nil k) (natRepr_all_isDig k) (by rfl)
    rwa [List.append_nil] at this
  rw [serializeSpan_eq_matchText]
  simp only [parseSpan, parseFull, htm, List.isEmpty_nil, if_true]
  rw [splitPipe_joinPipe_wf hne hall, digitsToNat_natRepr]
  have hfilter : cs.filter (fun v => !v.isEmpty) = cs := by
    rw [List.filter_eq_self]
    intro v hv
    simp only [Bool.not_eq_true', isEmpty_false_iff]
    exact goodEntry_ne_nil (hall v hv)
  rw [hfilter]

/-- C1 (witness): the round trip at `["quick", "fast"]` with activeIndex 1. -/
theorem c1_roundtrip_witness :
    (2 ≤ [strL "quick", strL "fast"].length ∧
      [strL "quick", strL "fast"].all goodEntry = true ∧
      1 < [strL "quick", strL "fast"].length) ∧
    parseSpan (serializeSpan [strL "quick", strL "fast"] 1) =
      some ([strL "quick", strL "fast"], 1) :=
  ⟨⟨by decide, by decide, by decide⟩,
    c1_roundtrip [strL "quick", strL "fast"] 1 (by decide) (by decide) (by decide)⟩

/-! ### Claim C2: resolveAll is a left-to-right concatenation -/

/-- C2: on every document made of `\x7b`-free plain stretches and
well-formed in-bounds spans (no span immediately followed by a digit),
resolveAll produces the concatenation of the plain stretches verbatim with
each span's active candidate, committing each span exactly once; in
particular the two-span example resolves to `a and d` with exactly 2
variants committed. -/
theorem c2_resolveAll_concatenation :
    (∀ ps : List Piece, wfPieces ps = true →
      resolveAll (renderPieces ps) = resolvePieces ps ∧
      (commitAll (renderPieces ps)).2 = countSpans ps) ∧
    resolveAll (strL "\x7b\x7ba|b\x7d\x7d^0 and \x7b\x7bc|d\x7d\x7d^1") = strL "a and d" ∧
    (commitAll (strL "\x7b\x7ba|b\x7d\x7d^0 and \x7b\x7bc|d\x7d\x7d^1")).2 = 2 := by
  refine ⟨fun ps h => ?_, by decide, by decide⟩
  have heq := commitAll_renderPieces ps h
  exact ⟨by simp [resolveAll, heq], by simp [heq]⟩

/-- C2 (witness): the decomposition theorem applied to the concrete
document `x \x7b\x7ba|bb\x7d\x7d^1!`. -/
theorem c2_witness :
    (wfPieces [Piece.plain (strL "x "), Piece.vspan [strL "a", strL "bb"] 1,
      Piece.plain (strL "!")] = true) ∧
    resolveAll (renderPieces [Piece.plain (strL "x "),
        Piece.vspan [strL "a", strL "bb"] 1, Piece.plain (strL "!")]) =
      resolvePieces [Piece.plain (strL "x "), Piece.vspan [strL "a", strL "bb"] 1,
        Piece.plain (strL "!")] :=
  ⟨by decide,
    (c2_resolveAll_concatenation.1 _ (by decide)).1⟩

/-! ### Claim C3: idempotence of resolveAll -/

/-- C3 (counterexample): resolveAll is not idempotent.  On
`\x7b\x7bp|q\x7d\x7d^\x7b\x7b0|1\x7d\x7d^1` the first pass resolves the inner span and
produces the new span `\x7b\x7bp|q\x7d\x7d^1`, which a second pass resolves to `q`. -/
theorem c3_idempotence_cex :
    resolveAll (resolveAll (strL "\x7b\x7bp|q\x7d\x7d^\x7b\x7b0|1\x7d\x7d^1")) ≠
      resolveAll (strL "\x7b\x7bp|q\x7d\x7d^\x7b\x7b0|1\x7d\x7d^1") := by
  decide

/-- C3 (amended): resolveAll is idempotent on every text of the
well-formed document shape (plain stretches without `\x7b`, spans
well-formed with in-bounds indices and not followed by a digit) — there
the first pass leaves no span syntax, so the second pass is the
identity.  On arbitrary text, idempotence fails (see the counterexample). -/
theorem c3_idempotent_on_wf (ps : List Piece) (h : wfPieces ps = true) :
    resolveAll (resolveAll (renderPieces ps)) = resolveAll (renderPieces ps) := by
  have h1 := commitAll_renderPieces ps h
  have h2 : resolveAll (renderPieces ps) = resolvePieces ps := by
    simp [resolveAll, h1]
  rw [h2]
  have h3 := commitAll_plain (resolvePieces ps) (resolvePieces_no_lbrace ps h)
  simp [resolveAll, h3]

/-- C3 (witness): idempotence at the concrete two-span document
`\x7b\x7bp|q\x7d\x7d^0 mid \x7b\x7br|s\x7d\x7d^1`. -/
theorem c3_witness :
    (wfPieces [Piece.vspan [strL "p", strL "q"] 0, Piece.plain (strL " mid "),
      Piece.vspan [strL "r", strL "s"] 1] = true) ∧
    resolveAll (resolveAll (renderPieces [Piece.vspan [strL "p", strL "q"] 0,
        Piece.plain (strL " mid "), Piece.vspan [strL "r", strL "s"] 1])) =
      resolveAll (renderPieces [Piece.vspan [strL "p", strL "q"] 0,
        Piece.plain (strL " mid "), Piece.vspan [strL "r", strL "s"] 1]) :=
  ⟨by decide, c3_idempotent_on_wf _ (by decide)⟩

/-! ### Claim C4: identity on texts without span substrings -/

/-- C4: on every text with no substring forming a well-formed span token,
the commit-all transformation is the identity and commits zero variants. -/
theorem c4_plain_identity (t : List Char) (h : containsSpanB t = false) :
    commitAll t = (t, 0) :=
  commitAll_no_span t h

/-- C4 (witness): identity on `a \x7bb\x7d c`, which contains braces but no
well-formed span. -/
theorem c4_witness :
    containsSpanB (strL "a \x7bb\x7d c") = false ∧
    commitAll (strL "a \x7bb\x7d c") = (strL "a \x7bb\x7d c", 0) :=
  ⟨by decide, c4_plain_identity (strL "a \x7bb\x7d c") (by decide)⟩

/-! ### Claim C5: out-of-bounds spans are passed through -/

/-- C5: a matched span whose parsed index is out of bounds for its
candidate list is re-emitted verbatim into the output, is not counted as a
committed variant, and the surrounding text (before and after) is
processed exactly as it would be on its own. -/
theorem c5_oob_passthrough (u inner ds v : List Char)
    (hu : u.all (fun c => !(c == '{')) = true)
    (hinner : inner ≠ []) (hib : inner.all notBrace = true)
    (hds : ds ≠ []) (hdig : ds.all isDig = true)
    (hv : headNotP isDig v = true)
    (hoob : (splitPipe inner).length ≤ digitsToNat ds) :
    commitAll (u ++ matchText inner ds ++ v) =
      (u ++ matchText inner ds ++ (commitAll v).1, (commitAll v).2) := by
  rw [List.append_assoc, commitAll_append_plain u _ hu,
    commitAll_span_oob hinner hib hds hdig hv hoob]
  simp

/-- C5 (witness): in `x \x7b\x7ba|b\x7d\x7d^7 \x7b\x7bc|d\x7d\x7d^0` the span with index 7
is re-emitted unchanged while the following span still resolves (to `c`)
and is the only one counted. -/
theorem c5_witness :
    ((strL "x ").all (fun c => !(c == '{')) = true ∧
      strL "a|b" ≠ [] ∧ (strL "a|b").all notBrace = true ∧
      strL "7" ≠ [] ∧ (strL "7").all isDig = true ∧
      headNotP isDig (strL " \x7b\x7bc|d\x7d\x7d^0") = true ∧
      (splitPipe (strL "a|b")).length ≤ digitsToNat (strL "7")) ∧
    commitAll (strL "x " ++ matchText (strL "a|b") (strL "7") ++ strL " \x7b\x7bc|d\x7d\x7d^0") =
      (strL "x " ++ matchText (strL "a|b") (strL "7") ++
        (commitAll (strL " \x7b\x7bc|d\x7d\x7d^0")).1,
        (commitAll (strL " \x7b\x7bc|d\x7d\x7d^0")).2) :=
  ⟨⟨by decide, by decide, by decide, by decide, by decide, by decide, by decide⟩,
    c5_oob_passthrough (strL "x ") (strL "a|b") (strL "7") (strL " \x7b\x7bc|d\x7d\x7d^0")
      (by decide) (by decide) (by decide) (by decide) (by decide) (by decide) (by decide)⟩

/-! ### Claim C6: locator overlap expansion -/

/-- C6: for a single-line selection `[f, t)` that is not itself an exact
full-span match, if the left-to-right scan's first overlapping match is
`m`, the locator expands the working selection to exactly
`[m.mStart, m.mEnd)`, takes that span's inner text and parsed activeIndex
as the initial model, marks the session as editing an existing variant,
and stops at the first such match (every earlier match fails the overlap
test); moreover a selection starting one character inside the braces
(within the span) always overlaps. -/
theorem c6_locator_expands (line : List Char) (f t : Nat) (m : SpanMatch)
    (hne : parseFull (selText line f t) = none)
    (hfind : (scanMatches line).find? (overlapB f t) = some m) :
    locateSpan line f t = ⟨m.mStart, m.mEnd, m.inner, digitsToNat m.digits, true⟩ ∧
    overlapB f t m = true ∧
    (∃ pre post, scanMatches line = pre ++ m :: post ∧
      ∀ m2 ∈ pre, overlapB f t m2 = false) ∧
    (∀ f2 t2, f2 = m.mStart + 1 → f2 < t2 → t2 ≤ m.mEnd → overlapB f2 t2 m = true) := by
  obtain ⟨hov, pre, post, heq, hpre⟩ := find?_first hfind
  refine ⟨?_, hov, ⟨pre, post, heq, hpre⟩, ?_⟩
  · simp [locateSpan, hne, hfind]
  · intro f2 t2 h1 h2 h3
    simp only [overlapB, Bool.or_eq_true, Bool.and_eq_true, decide_eq_true_eq]
    omega

/-- C6 (witness): in line `x \x7b\x7bp|q\x7d\x7d^0 y`, the selection `[3, 5)`
starts one character inside the braces and expands to the full span
`[2, 11)` with candidates text `p|q` and activeIndex 0, in editing mode. -/
theorem c6_witness :
    (parseFull (selText (strL "x \x7b\x7bp|q\x7d\x7d^0 y") 3 5) = none ∧
      (scanMatches (strL "x \x7b\x7bp|q\x7d\x7d^0 y")).find? (overlapB 3 5) =
        some ⟨2, 11, strL "p|q", strL "0"⟩) ∧
    locateSpan (strL "x \x7b\x7bp|q\x7d\x7d^0 y") 3 5 =
      ⟨2, 11, strL "p|q", digitsToNat (strL "0"), true⟩ :=
  ⟨⟨by decide, by decide⟩,
    (c6_locator_expands (strL "x \x7b\x7bp|q\x7d\x7d^0 y") 3 5 ⟨2, 11, strL "p|q", strL "0"⟩
      (by decide) (by decide)).1⟩

/-! ### Claim C7: blank active entry defers to lastNonEmpty -/

/-- C7: when the active index is in bounds, the currently active entry is
blank (trimmed) and not index 0, and `lastNonEmptyVariantIndex` points at
an entry of positive length, serialization writes back (given at least two
positive-length entries) the filtered candidate texts, and the written
active index is the position of the `lastNonEmptyVariantIndex` entry
within the filtered list (the number of positive-length entries before
it). -/
theorem c7_blank_active_defers (st : VState)
    (hA : st.activeIndex < st.variants.length)
    (hblank : trimmedEmpty (st.variants.getD st.activeIndex []) = true)
    (h0 : st.activeIndex ≠ 0)
    (hlast : st.lastNonEmpty < st.variants.length)
    (hlne : (st.variants.getD st.lastNonEmpty []).isEmpty = false)
    (hcount : 2 ≤ (nonEmptyWithIdx st.variants).length) :
    toSerializable st =
      WriteBack.written ((nonEmptyWithIdx st.variants).map (fun p => p.2))
        (((st.variants.take st.lastNonEmpty).filter (fun v => !v.isEmpty)).length) := by
  have hfind := findPos_withIdx st.variants 0 st.lastNonEmpty hlast hlne
  simp only [Nat.zero_add] at hfind
  have hfind2 : findPos st.lastNonEmpty (nonEmptyWithIdx st.variants) =
      some (((st.variants.take st.lastNonEmpty).filter (fun v => !v.isEmpty)).length) :=
    hfind
  have hb : (st.activeIndex == 0) = false := by
    simp only [beq_eq_false_iff_ne]
    exact h0
  simp only [toSerializable, hblank, hb, Bool.not_false, Bool.and_self,
    if_pos hcount, if_pos hA, hfind2, if_true]

/-- C7 (witness): entries `["orig", "", "alt"]` with activeIndex 1 and
lastNonEmptyVariantIndex 0 write back candidates `["orig", "alt"]` with
active index 0. -/
theorem c7_witness :
    (1 < [strL "orig", strL "", strL "alt"].length ∧
      trimmedEmpty ([strL "orig", strL "", strL "alt"].getD 1 []) = true ∧
      (1 : Nat) ≠ 0 ∧ 0 < [strL "orig", strL "", strL "alt"].length ∧
      ([strL "orig", strL "", strL "alt"].getD 0 []).isEmpty = false ∧
      2 ≤ (nonEmptyWithIdx [strL "orig", strL "", strL "alt"]).length) ∧
    toSerializable ⟨[strL "orig", strL "", strL "alt"], 1, 0⟩ =
      WriteBack.written [strL "orig", strL "alt"] 0 :=
  ⟨⟨by decide, by decide, by decide, by decide, by decide, by decide⟩, by
    have h := c7_blank_active_defers ⟨[strL "orig", strL "", strL "alt"], 1, 0⟩
      (by decide) (by decide) (by decide) (by decide) (by decide) (by decide)
    rw [h]
    decide⟩

/-! ### Claim C8: serializability threshold -/

/-- C8 (counterexample): the model `["x", " "]` has only one entry with
non-blank trimmed text, yet the code's filter counts raw length, so the
model does serialize to a span (with the whitespace entry as a
candidate), contradicting the claimed if-and-only-if. -/
theorem c8_whitespace_cex :
    toSerializable ⟨[strL "x", strL " "], 0, 0⟩ =
      WriteBack.written [strL "x", strL " "] 0 ∧
    ([strL "x", strL " "].filter (fun v => !(trimmedEmpty v))).length = 1 := by
  refine ⟨by decide, by decide⟩

/-- C8 (amended): the model writes back span syntax if and only if at
least two entries have positive raw length (whitespace-only entries do
count) and the active index is within the entries (with two
positive-length entries but an out-of-range active index — reachable from
a hand-written span such as `\x7b\x7ba|b\x7d\x7d^7` — the update instead
throws before any write-back); no write-back at all happens exactly when
fewer than two entries have positive length; and a model whose sole entry
is `x` does not serialize while its commit outputs the plain text `x`. -/
theorem c8_serializable_iff (st : VState) :
    ((∃ cs k, toSerializable st = WriteBack.written cs k) ↔
      2 ≤ (st.variants.filter (fun v => !v.isEmpty)).length ∧
        st.activeIndex < st.variants.length) ∧
    (toSerializable st = WriteBack.skipped ↔
      (st.variants.filter (fun v => !v.isEmpty)).length < 2) ∧
    toSerializable ⟨[strL "x"], 0, 0⟩ = WriteBack.skipped ∧
    commitActive ⟨[strL "x"], 0, 0⟩ = some (strL "x") := by
  have hlen : (nonEmptyWithIdx st.variants).length =
      (st.variants.filter (fun v => !v.isEmpty)).length :=
    length_filter_withIdx st.variants 0
  refine ⟨⟨?_, ?_⟩, ⟨?_, ?_⟩, by decide, by decide⟩
  · rintro ⟨cs, k, hw⟩
    unfold toSerializable at hw
    by_cases h1 : 2 ≤ (nonEmptyWithIdx st.variants).length
    · rw [if_pos h1] at hw
      by_cases h2 : st.activeIndex < st.variants.length
      · exact ⟨by omega, h2⟩
      · rw [if_neg h2] at hw
        exact absurd hw (by simp)
    · rw [if_neg h1] at hw
      exact absurd hw (by simp)
  · rintro ⟨hc, hA⟩
    unfold toSerializable
    rw [if_pos (by omega), if_pos hA]
    exact ⟨_, _, rfl⟩
  · intro hw
    unfold toSerializable at hw
    by_cases h1 : 2 ≤ (nonEmptyWithIdx st.variants).length
    · rw [if_pos h1] at hw
      by_cases h2 : st.activeIndex < st.variants.length
      · rw [if_pos h2] at hw
        exact absurd hw (by simp)
      · rw [if_neg h2] at hw
        exact absurd hw (by simp)
    · omega
  · intro hc
    unfold toSerializable
    rw [if_neg (by omega)]

/-! ### Claim C9: index remapping under deletion -/

/-- C9: deleting entry `i` re-maps the active index so it keeps pointing
at the same logical entry — an active index greater than `i` is
decremented, an active index equal to `i` becomes `max(0, i-1)` (in `Nat`,
`i - 1`), an active index below `i` is unchanged (and in the unequal cases
the entry it denotes in the spliced list is the entry it denoted before) —
and the resulting active index is always a valid index into the remaining
entries; in particular removing index 0 from `["a","b","c"]` with active
index 1 yields `["b","c"]` with active index 0, still pointing at `b`. -/
theorem c9_removeAt_remap (st : VState) (i : Nat)
    (hi : 0 < i) (hil : i < st.variants.length)
    (ha : st.activeIndex < st.variants.length) :
    ((st.activeIndex = i → (removeAt st i).activeIndex = i - 1) ∧
     (i < st.activeIndex → (removeAt st i).activeIndex = st.activeIndex - 1) ∧
     (st.activeIndex < i → (removeAt st i).activeIndex = st.activeIndex) ∧
     (st.activeIndex ≠ i →
       (st.variants.eraseIdx i).getD (removeAt st i).activeIndex [] =
         st.variants.getD st.activeIndex []) ∧
     (removeAt st i).activeIndex < (removeAt st i).variants.length) ∧
    removeAt ⟨[strL "a", strL "b", strL "c"], 1, 1⟩ 0 =
      ⟨[strL "b", strL "c"], 0, 1⟩ := by
  refine ⟨?_, by decide⟩
  have hact : (removeAt st i).activeIndex =
      (if st.activeIndex == i then i - 1
       else if i < st.activeIndex then st.activeIndex - 1
       else st.activeIndex) := rfl
  have hvars : (removeAt st i).variants =
      (if (st.variants.eraseIdx i).length == 1 &&
          trimmedEmpty ((st.variants.eraseIdx i).getD 0 []) then [[' ']]
       else st.variants.eraseIdx i) := rfl
  have hact2 : (removeAt st i).activeIndex =
      (if st.activeIndex = i then i - 1
       else if i < st.activeIndex then st.activeIndex - 1
       else st.activeIndex) := by
    rw [hact]
    by_cases he : st.activeIndex = i
    · simp [he]
    · have hb : (st.activeIndex == i) = false := by
        simp only [beq_eq_false_iff_ne]
        exact he
      simp [hb, he]
  have hlen : (st.variants.eraseIdx i).length = st.variants.length - 1 :=
    length_eraseIdx_of_lt st.variants i hil
  have hval : (removeAt st i).activeIndex < st.variants.length - 1 := by
    rw [hact2]
    by_cases h1 : st.activeIndex = i
    · rw [if_pos h1]
      omega
    · rw [if_neg h1]
      by_cases h2 : i < st.activeIndex
      · rw [if_pos h2]
        omega
      · rw [if_neg h2]
        omega
  refine ⟨?_, ?_, ?_, ?_, ?_⟩
  · intro h
    rw [hact2, if_pos h]
  · intro h
    rw [hact2, if_neg (by omega), if_pos h]
  · intro h
    rw [hact2, if_neg (by omega), if_neg (by omega)]
  · intro h
    rcases Nat.lt_or_ge st.activeIndex i with hlt | hge
    · have he : (removeAt st i).activeIndex = st.activeIndex := by
        rw [hact2, if_neg (by omega), if_neg (by omega)]
      rw [he]
      exact eraseIdx_getD_lt st.variants i st.activeIndex hlt
    · have hgt : i < st.activeIndex := by omega
      have he : (removeAt st i).activeIndex = st.activeIndex - 1 := by
        rw [hact2, if_neg (by omega), if_pos hgt]
      rw [he]
      have hge2 := eraseIdx_getD_ge st.variants i (st.activeIndex - 1) (by omega)
      rw [hge2]
      congr 1
      omega
  · rw [hvars]
    by_cases hrep : ((st.variants.eraseIdx i).length == 1 &&
        trimmedEmpty ((st.variants.eraseIdx i).getD 0 [])) = true
    · rw [if_pos hrep]
      simp only [Bool.and_eq_true, beq_iff_eq] at hrep
      simp only [List.length_cons, List.length_nil]
      omega
    · rw [if_neg hrep]
      omega

/-- C9 (witness): removing index 2 from `["a","b","c"]` with active
index 1 keeps a valid active index. -/
theorem c9_witness :
    (0 < 2 ∧ 2 < [strL "a", strL "b", strL "c"].length ∧
      1 < [strL "a", strL "b", strL "c"].length) ∧
    (removeAt ⟨[strL "a", strL "b", strL "c"], 1, 1⟩ 2).activeIndex <
      (removeAt ⟨[strL "a", strL "b", strL "c"], 1, 1⟩ 2).variants.length :=
  ⟨⟨by decide, by decide, by decide⟩,
    (c9_removeAt_remap ⟨[strL "a", strL "b", strL "c"], 1, 1⟩ 2
      (by decide) (by decide) (by decide)).1.2.2.2.2⟩

/-! ### Claim C10: active-candidate offsets for parsed spans -/

/-- C10 (counterexample): for the structurally valid span `\x7b\x7ba|b\x7d\x7d^5`
(activeIndex 5 with only 2 candidates), the decoration builder's offset
computation reads `variantsText.split('|')[5].length`, an access to a
missing element (a thrown TypeError in JS, `none` in the model) — the
index is neither clamped nor treated as 0, so the computation is not
defined behavior as claimed. -/
theorem c10_offsets_cex :
    (isSpanToken (strL "\x7b\x7ba|b\x7d\x7d^5") = true ∧
      (splitPipe (strL "a|b")).length ≤ 5) ∧
    locateActiveOffsets (strL "\x7b\x7ba|b\x7d\x7d^5") (strL "a|b") 5 = none := by
  refine ⟨⟨by decide, by decide⟩, by decide⟩

/-- C10 (amended): the active-candidate offset computation is defined
exactly for in-bounds indices: for a well-formed candidate list and
`k < len(candidates)` it returns the spec 4.1 offsets — start = 2 plus
the lengths of the earlier candidates plus one separator each, end =
start plus the active candidate's length — while for any out-of-bounds
index it fails (`none`, an undefined-element access) instead of clamping. -/
theorem c10_offsets_in_bounds (cs : List (List Char)) (k : Nat)
    (hgood : cs.all goodEntry = true) (hk : k < cs.length) :
    locateActiveOffsets (serializeSpan cs k) (joinPipe cs) k =
      some (activeStart cs k, activeStart cs k + (cs.getD k []).length) ∧
    (∀ k2, cs.length ≤ k2 →
      locateActiveOffsets (serializeSpan cs k2) (joinPipe cs) k2 = none) := by
  have hall := List.all_eq_true.mp hgood
  have hne : cs ≠ [] := by
    intro h
    rw [h] at hk
    simp at hk
  have hsplit : splitPipe (joinPipe cs) = cs := splitPipe_joinPipe_wf hne hall
  constructor
  · have hget : (splitPipe (joinPipe cs))[k]? = some (cs.getD k []) := by
      rw [hsplit]
      exact getElem?_eq_getD cs k hk
    by_cases h0 : k = 0
    · subst h0
      simp only [locateActiveOffsets, hget]
      have : activeStart cs 0 = 2 := by simp [activeStart]
      simp [this]
    · have hb : (k == 0) = false := by
        simp only [beq_eq_false_iff_ne]
        exact h0
      have hpos : posIter (serializeSpan cs k) k 0 = activeStart cs k := by
        rw [serializeSpan]
        exact posIter_from_zero hall (by omega) hk
      simp only [locateActiveOffsets, hb, Bool.false_eq_true, if_false, hpos, hget,
        Option.map_some']
  · intro k2 hk2
    have hget : (splitPipe (joinPipe cs))[k2]? = none := by
      rw [hsplit]
      exact getElem?_none_of_le cs k2 hk2
    simp [locateActiveOffsets, hget]

/-- C10 (witness): for candidates `["aa", "b", "ccc"]` with activeIndex 2,
the offsets are `(7, 10)`: 2 for the braces, 3 for `aa|`, 2 for `b|`,
then the three characters of `ccc`. -/
theorem c10_witness :
    ([strL "aa", strL "b", strL "ccc"].all goodEntry = true ∧
      2 < [strL "aa", strL "b", strL "ccc"].length) ∧
    locateActiveOffsets (serializeSpan [strL "aa", strL "b", strL "ccc"] 2)
        (joinPipe [strL "aa", strL "b", strL "ccc"]) 2 =
      some (activeStart [strL "aa", strL "b", strL "ccc"] 2,
        activeStart [strL "aa", strL "b", strL "ccc"] 2 +
          ([strL "aa", strL "b", strL "ccc"].getD 2 []).length) :=
  ⟨⟨by decide, by decide⟩,
    (c10_offsets_in_bounds [strL "aa", strL "b", strL "ccc"] 2 (by decide) (by decide)).1⟩
